import Mathlib

set_option autoImplicit false

/-!
Verification of the ByteCraft patch engine (`apply-patch` module).

The definitions below are a shallow embedding of the TypeScript source:
strings are Lean `String`s, JavaScript arrays are Lean lists, JavaScript
`number` indices are `Int` (they can be negative, e.g. the sentinel `-1`
and the EOF tail start `lines.length - context.length`), and the
exception-based error handling is `Except String`.  Every string operation
used by the source (`trim`, `trimEnd`, `split`, `join`,
`startsWith`, `slice`) is defined structurally over the character list so
that concrete instances reduce inside the kernel.

`String.prototype.normalize` with argument NFC is a JavaScript builtin; it
is kept abstract as an explicit function parameter `nfc` threaded through
the engine.  Theorems that depend on properties of NFC state them as
hypotheses; witnesses instantiate `nfc` with the identity function (NFC is
the identity on NFC-normalized text).
-/

namespace ByteCraft

/-- The apostrophe character U+0027. -/
def apos : Char := Char.ofNat 39

/-- JavaScript whitespace (the WhiteSpace and LineTerminator productions),
the character class stripped by `trim` and `trimEnd`. -/
def jsWhitespace (c : Char) : Bool :=
  [ '\u0009', '\u000A', '\u000B', '\u000C', '\u000D', ' ', '\u00A0',
    '\u1680', '\u2000', '\u2001', '\u2002', '\u2003', '\u2004', '\u2005',
    '\u2006', '\u2007', '\u2008', '\u2009', '\u200A', '\u2028', '\u2029',
    '\u202F', '\u205F', '\u3000', '\uFEFF' ].contains c

/-- Model of `String.prototype.trimEnd`. -/
def jsTrimEnd (s : String) : String :=
  ⟨(s.data.reverse.dropWhile jsWhitespace).reverse⟩

/-- Model of `String.prototype.trimStart`. -/
def jsTrimStart (s : String) : String :=
  ⟨s.data.dropWhile jsWhitespace⟩

/-- Model of `String.prototype.trim`. -/
def jsTrim (s : String) : String :=
  jsTrimStart (jsTrimEnd s)

/-- `charsPfx p s` holds when the character list `p` is an initial
segment of `s`. -/
def charsPfx : List Char → List Char → Bool
  | [], _ => true
  | _ :: _, [] => false
  | c :: p, d :: s => if c = d then charsPfx p s else false

/-- Model of `String.prototype.startsWith`. -/
def jsStartsWith (s pre : String) : Bool :=
  charsPfx pre.data s.data

/-- Drops the first `n` characters, modelling `String.prototype.slice`
with one non-negative argument (the only way the source slices strings). -/
def jsDropChars (s : String) (n : Nat) : String :=
  ⟨s.data.drop n⟩

/-- Model of splitting a character list at every newline character. -/
def splitNlChars : List Char → List (List Char)
  | [] => [[]]
  | c :: cs =>
    match splitNlChars cs with
    | [] => [[c]]
    | l :: ls => if c = '\n' then [] :: l :: ls else (c :: l) :: ls

/-- Model of `String.prototype.split` with separator `"\n"`. -/
def splitNl (s : String) : List String :=
  (splitNlChars s.data).map (fun l => ⟨l⟩)

/-- Model of `Array.prototype.join` with separator `"\n"`. -/
def joinNl : List String → String
  | [] => ""
  | [s] => s
  | s :: t :: rest => s ++ "\n" ++ joinNl (t :: rest)

/-- Clamping of one `Array.prototype.slice` index argument: a negative
index counts from the end of the array, and both ends are clamped to
`[0, len]`. -/
def jsSliceIdx (len : Nat) (i : Int) : Nat :=
  if i < 0 then ((len : Int) + i).toNat else min i.toNat len

/-- Model of the two-argument `Array.prototype.slice` with JavaScript
index semantics (negative indices count from the end). -/
def jsSlice {α : Type} (l : List α) (b e : Int) : List α :=
  (l.take (jsSliceIdx l.length e)).drop (jsSliceIdx l.length b)

/-- Model of the one-argument `Array.prototype.slice`. -/
def jsSliceFrom {α : Type} (l : List α) (b : Int) : List α :=
  jsSlice l b (l.length : Int)

/-- `intRangeGo k i = [i, i+1, …, i+k-1]`, the integer indices visited by
a JavaScript for loop that increments `k` times starting from `i`. -/
def intRangeGo : Nat → Int → List Int
  | 0, _ => []
  | k + 1, i => i :: intRangeGo k (i + 1)

/-- The indices visited by a for loop running from `i` while `< n`. -/
def intRange (i n : Int) : List Int :=
  intRangeGo (n - i).toNat i

/-- The fixed `PUNCT_EQUIV` table of the source, as the key/value pairs
of its object literal: hyphen/dash variants, double- and single-quote
variants and non-breaking/narrow spaces are collapsed to one ASCII
representative each. -/
def PUNCT_EQUIV : List (Char × Char) :=
  [ ('-', '-'), ('\u2010', '-'), ('\u2011', '-'), ('\u2012', '-'),
    ('\u2013', '-'), ('\u2014', '-'), ('\u2212', '-'),
    ('"', '"'), ('\u201C', '"'), ('\u201D', '"'), ('\u201E', '"'),
    ('\u00AB', '"'), ('\u00BB', '"'),
    (apos, apos), ('\u2018', apos), ('\u2019', apos), ('\u201B', apos),
    ('\u00A0', ' '), ('\u202F', ' ') ]

/-- Lookup in the `PUNCT_EQUIV` table (the JavaScript object access
`PUNCT_EQUIV[c]`). -/
def punctEquivChar (c : Char) : Option Char :=
  (PUNCT_EQUIV.find? (fun q => decide (q.1 = c))).map Prod.snd

/-- One character of the `replace` pass over the whole string: the table
image when defined, the character itself otherwise.  (The regular
expression `/./gu` of the source skips line terminators, but the table
maps none of them, so the per-character map coincides with the source.) -/
def pmapChar (c : Char) : Char :=
  (punctEquivChar c).getD c

/-- The punctuation-equivalence replacement applied to a whole string. -/
def pmapStr (s : String) : String :=
  ⟨s.data.map pmapChar⟩

/-- `canon` of the source: NFC normalization (the abstract `nfc`
parameter) followed by the punctuation-equivalence replacement. -/
def canon (nfc : String → String) (s : String) : String :=
  pmapStr (nfc s)

/-- Tier-1 window comparison of `find_context_core`: the canonicalized
joined window of `context.length` lines starting at `i` equals the
canonicalized joined context. -/
def tier1At (nfc : String → String) (lines context : List String) (i : Int) : Bool :=
  decide (canon nfc (joinNl (jsSlice lines i (i + (context.length : Int)))) =
    canon nfc (joinNl context))

/-- Tier-2 window comparison: as tier 1 but with `trimEnd` applied to
every compared line first. -/
def tier2At (nfc : String → String) (lines context : List String) (i : Int) : Bool :=
  decide (canon nfc (joinNl ((jsSlice lines i (i + (context.length : Int))).map jsTrimEnd)) =
    canon nfc (joinNl (context.map jsTrimEnd)))

/-- Tier-3 window comparison: as tier 1 but with `trim` applied to every
compared line first. -/
def tier3At (nfc : String → String) (lines context : List String) (i : Int) : Bool :=
  decide (canon nfc (joinNl ((jsSlice lines i (i + (context.length : Int))).map jsTrim)) =
    canon nfc (joinNl (context.map jsTrim)))

/-- `find_context_core` of the source: an empty context matches at
`start`; otherwise three scans over the indices from `start` up to
`lines.length` are tried in order (exact, `trimEnd`, `trim`), returning
the first matching index with fuzz 0, 1 and 100 respectively, and
`(-1, 0)` when none match. -/
def find_context_core (nfc : String → String) (lines context : List String)
    (start : Int) : Int × Int :=
  let n : Int := (lines.length : Int)
  if context.length = 0 then (start, 0)
  else
    match (intRange start n).find? (fun i => tier1At nfc lines context i) with
    | some i => (i, 0)
    | none =>
      match (intRange start n).find? (fun i => tier2At nfc lines context i) with
      | some i => (i, 1)
      | none =>
        match (intRange start n).find? (fun i => tier3At nfc lines context i) with
        | some i => (i, 100)
        | none => (-1, 0)

/-- `find_context` of the source: with `eof` set the scan is first
attempted from `lines.length - context.length`; if that reports the
sentinel `-1` the scan is retried from `start` and 10000 is added to the
resulting fuzz.  Without `eof` it is `find_context_core` from `start`. -/
def find_context (nfc : String → String) (lines context : List String)
    (start : Int) (eof : Bool) : Int × Int :=
  if eof then
    let r := find_context_core nfc lines context
      ((lines.length : Int) - (context.length : Int))
    if r.1 ≠ -1 then r
    else
      let r2 := find_context_core nfc lines context start
      (r2.1, r2.2 + 10000)
  else find_context_core nfc lines context start

/-! ### Scan lemmas -/

theorem intRangeGo_find_some {p : Int → Bool} (k : Nat) :
    ∀ (i j : Int), (intRangeGo k i).find? p = some j →
      i ≤ j ∧ j < i + (k : Int) ∧ p j = true ∧
        ∀ m : Int, i ≤ m → m < j → p m = false := by
  induction k with
  | zero => intro i j h; simp [intRangeGo] at h
  | succ k ih =>
    intro i j h
    simp only [intRangeGo, List.find?] at h
    by_cases hp : p i = true
    · rw [hp] at h
      simp only [Option.some.injEq] at h
      subst h
      refine ⟨le_refl i, by omega, hp, ?_⟩
      intro m h1 h2; omega
    · rw [Bool.not_eq_true] at hp
      rw [hp] at h
      obtain ⟨h1, h2, h3, h4⟩ := ih (i + 1) j h
      refine ⟨by omega, by omega, h3, ?_⟩
      intro m hm1 hm2
      rcases eq_or_lt_of_le hm1 with rfl | hlt
      · exact hp
      · exact h4 m (by omega) hm2

theorem intRangeGo_find_none {p : Int → Bool} (k : Nat) :
    ∀ (i : Int), (intRangeGo k i).find? p = none →
      ∀ m : Int, i ≤ m → m < i + (k : Int) → p m = false := by
  induction k with
  | zero => intro i _ m h1 h2; omega
  | succ k ih =>
    intro i h m h1 h2
    simp only [intRangeGo, List.find?] at h
    by_cases hp : p i = true
    · rw [hp] at h; cases h
    · rw [Bool.not_eq_true] at hp
      rw [hp] at h
      rcases eq_or_lt_of_le h1 with rfl | hlt
      · exact hp
      · exact ih (i + 1) h m (by omega) (by omega)

theorem intRange_find_some {p : Int → Bool} {i n j : Int}
    (h : (intRange i n).find? p = some j) :
    i ≤ j ∧ j < n ∧ p j = true ∧ ∀ m : Int, i ≤ m → m < j → p m = false := by
  obtain ⟨h1, h2, h3, h4⟩ := intRangeGo_find_some (n - i).toNat i j h
  exact ⟨h1, by omega, h3, h4⟩

theorem intRange_find_none {p : Int → Bool} {i n : Int}
    (h : (intRange i n).find? p = none) :
    ∀ m : Int, i ≤ m → m < n → p m = false := by
  intro m h1 h2
  exact intRangeGo_find_none (n - i).toNat i h m h1 (by omega)

theorem intRange_find_isSome {i n j : Int} (p : Int → Bool)
    (h1 : i ≤ j) (h2 : j < n) (h3 : p j = true) :
    ∃ j2, (intRange i n).find? p = some j2 := by
  cases hf : (intRange i n).find? p with
  | none =>
    have := intRange_find_none hf j h1 h2
    rw [h3] at this; cases this
  | some j2 => exact ⟨j2, rfl⟩

/-! ### Context-matcher lemmas -/

theorem jsSlice_natCast {α : Type} (l : List α) (b e : Nat) :
    jsSlice l (b : Int) (e : Int) = (l.take e).drop b := by
  simp only [jsSlice, jsSliceIdx]
  rw [if_neg (by omega), if_neg (by omega)]
  simp only [Int.toNat_natCast]
  have htake : l.take (min e l.length) = l.take e := by
    rcases le_or_lt e l.length with he | he
    · rw [min_eq_left he]
    · rw [min_eq_right he.le, List.take_length, List.take_of_length_le he.le]
  rw [htake]
  rcases le_or_lt b l.length with hb | hb
  · rw [min_eq_left hb]
  · have h1 : (l.take e).length ≤ l.length := by
      simp only [List.length_take]; omega
    rw [min_eq_right hb.le, List.drop_eq_nil_of_le h1,
      List.drop_eq_nil_of_le (le_trans h1 hb.le)]

theorem tier1At_of_window_eq {nfc : String → String} {lines context : List String}
    {j : Int} (h : jsSlice lines j (j + (context.length : Int)) = context) :
    tier1At nfc lines context j = true := by
  simp [tier1At, h]

theorem window_eq_of_literal {lines context : List String} {j : Nat}
    (hocc : (lines.drop j).take context.length = context) :
    jsSlice lines (j : Int) ((j : Int) + (context.length : Int)) = context := by
  have : ((j : Int) + (context.length : Int)) = ((j + context.length : Nat) : Int) := by
    push_cast; ring
  rw [this, jsSlice_natCast, ← List.take_drop, hocc]

theorem find_context_core_empty (nfc : String → String) (lines context : List String)
    (h : context.length = 0) (start : Int) :
    find_context_core nfc lines context start = (start, 0) := by
  simp [find_context_core, h]

/-- Unfolding of `find_context` in the EOF-anchored case. -/
theorem find_context_eof_eq (nfc : String → String) (lines context : List String)
    (start : Int) :
    find_context nfc lines context start true =
      (if (find_context_core nfc lines context
            ((lines.length : Int) - (context.length : Int))).1 ≠ -1
       then find_context_core nfc lines context
            ((lines.length : Int) - (context.length : Int))
       else ((find_context_core nfc lines context start).1,
             (find_context_core nfc lines context start).2 + 10000)) := rfl

/-- Unfolding of `find_context` in the non-anchored case. -/
theorem find_context_noeof_eq (nfc : String → String) (lines context : List String)
    (start : Int) :
    find_context nfc lines context start false =
      find_context_core nfc lines context start := rfl

theorem find_context_core_snd_nonneg (nfc : String → String)
    (lines context : List String) (start : Int) :
    0 ≤ (find_context_core nfc lines context start).2 := by
  unfold find_context_core
  by_cases hc : context.length = 0
  · simp [hc]
  · simp only [hc, if_false]
    rcases h1 : List.find? (fun i => tier1At nfc lines context i) (intRange start (lines.length : Int)) with _ | i1
    <;> rcases h2 : List.find? (fun i => tier2At nfc lines context i) (intRange start (lines.length : Int)) with _ | i2
    <;> rcases h3 : List.find? (fun i => tier3At nfc lines context i) (intRange start (lines.length : Int)) with _ | i3
    <;> simp [h1, h2, h3]

theorem find_context_core_fst_lower (nfc : String → String)
    (lines context : List String) (start : Int) :
    (find_context_core nfc lines context start).1 = -1 ∨
      start ≤ (find_context_core nfc lines context start).1 := by
  unfold find_context_core
  by_cases hc : context.length = 0
  · simp [hc]
  · simp only [hc, if_false]
    rcases h1 : List.find? (fun i => tier1At nfc lines context i) (intRange start (lines.length : Int)) with _ | i1
    <;> rcases h2 : List.find? (fun i => tier2At nfc lines context i) (intRange start (lines.length : Int)) with _ | i2
    <;> rcases h3 : List.find? (fun i => tier3At nfc lines context i) (intRange start (lines.length : Int)) with _ | i3
    <;> simp only [h1, h2, h3]
    all_goals first
      | simp
      | (exact Or.inr (intRange_find_some h1).1)
      | (exact Or.inr (intRange_find_some h2).1)
      | (exact Or.inr (intRange_find_some h3).1)

theorem find_context_core_not_found (nfc : String → String)
    {lines context : List String} {start : Int} (hstart : 0 ≤ start)
    (h : (find_context_core nfc lines context start).1 = -1) :
    find_context_core nfc lines context start = (-1, 0) := by
  by_cases hc : context.length = 0
  · rw [find_context_core_empty nfc lines _ hc start] at h
    simp at h
    omega
  · unfold find_context_core at h ⊢
    simp only [hc, if_false] at h ⊢
    rcases h1 : List.find? (fun i => tier1At nfc lines context i) (intRange start (lines.length : Int)) with _ | i1
    <;> rcases h2 : List.find? (fun i => tier2At nfc lines context i) (intRange start (lines.length : Int)) with _ | i2
    <;> rcases h3 : List.find? (fun i => tier3At nfc lines context i) (intRange start (lines.length : Int)) with _ | i3
    <;> simp only [h1, h2, h3] at h ⊢
    all_goals first
      | rfl
      | (exfalso; have h4 := (intRange_find_some h1).1; omega)
      | (exfalso; have h4 := (intRange_find_some h2).1; omega)
      | (exfalso; have h4 := (intRange_find_some h3).1; omega)

theorem find_context_core_succeeds_of_literal (nfc : String → String)
    {lines context : List String} {start : Int} (hstart : 0 ≤ start)
    (j : Nat) (hj : start ≤ (j : Int)) (hlen : j + context.length ≤ lines.length)
    (hocc : (lines.drop j).take context.length = context) :
    ∃ i : Int, find_context_core nfc lines context start = (i, 0) ∧
      start ≤ i ∧ i ≤ (j : Int) := by
  by_cases hc : context.length = 0
  · exact ⟨start, find_context_core_empty nfc lines _ hc start, le_refl _, hj⟩
  · have ht1 : tier1At nfc lines context (j : Int) = true :=
      tier1At_of_window_eq (window_eq_of_literal hocc)
    have hjn : (j : Int) < (lines.length : Int) := by
      have : 0 < context.length := Nat.pos_of_ne_zero hc
      omega
    obtain ⟨i, hi⟩ := intRange_find_isSome (fun i => tier1At nfc lines context i)
      hj hjn ht1
    obtain ⟨ha, _, _, hmin⟩ := intRange_find_some hi
    refine ⟨i, ?_, ha, ?_⟩
    · unfold find_context_core
      simp only [hc, if_false, hi]
    · by_contra hcon
      have := hmin (j : Int) hj (by omega)
      rw [ht1] at this
      cases this

/-- C7 (amended): whenever `find_context`, called with a non-negative
start offset, reports not found (sentinel index `-1`), the fuzz component
is `0` when `anchor_at_eof` is false and exactly `10000` when
`anchor_at_eof` is true (both failed attempts contribute fuzz 0, and the
EOF retry penalty of 10000 is still added). -/
theorem claim_C7_notfound_fuzz (nfc : String → String)
    (lines context : List String) (start : Int) (eof : Bool) (f : Int)
    (hstart : 0 ≤ start)
    (h : find_context nfc lines context start eof = (-1, f)) :
    f = if eof then 10000 else 0 := by
  cases eof with
  | false =>
    rw [find_context_noeof_eq] at h
    have h1 : (find_context_core nfc lines context start).1 = -1 := by rw [h]
    have h2 := find_context_core_not_found nfc hstart h1
    rw [h2] at h
    have := congrArg Prod.snd h
    simpa using this.symm
  | true =>
    rw [find_context_eof_eq] at h
    split at h
    · next hne =>
      exfalso
      apply hne
      rw [h]
    · next hne =>
      have h1 : (find_context_core nfc lines context start).1 = -1 := by
        have := congrArg Prod.fst h
        simpa using this
      have h2 := find_context_core_not_found nfc hstart h1
      have h3 := congrArg Prod.snd h
      rw [h2] at h3
      simp at h3
      simp [← h3]

/-- C7 counterexample: with `anchor_at_eof` set and no match anywhere,
`find_context` reports the sentinel index `-1` with fuzz `10000`, not
fuzz `0` as the claim states. -/
theorem claim_C7_counterexample :
    find_context (fun s => s) ["a"] ["b"] 0 true = (-1, 10000) ∧
      (10000 : Int) ≠ 0 := by
  constructor
  · decide
  · decide

/-- Witness for `claim_C7_notfound_fuzz` at a concrete input. -/
theorem claim_C7_witness :
    (10000 : Int) = if (true : Bool) then 10000 else 0 :=
  claim_C7_notfound_fuzz (fun s => s) ["a"] ["b"] 0 true 10000
    (by decide) (by decide)

/-- C8 (amended): an empty context block matches trivially with fuzz 0,
but at `start` only when `anchor_at_eof` is false; when `anchor_at_eof`
is true the EOF-anchored attempt starts (and immediately succeeds) at
`lines.length`, so the returned index is `lines.length`, not `start`. -/
theorem claim_C8_empty_context (nfc : String → String) (lines : List String)
    (start : Int) (eof : Bool) :
    find_context nfc lines [] start eof =
      if eof then ((lines.length : Int), 0) else (start, 0) := by
  cases eof with
  | false =>
    rw [find_context_noeof_eq]
    simpa using find_context_core_empty nfc lines [] rfl start
  | true =>
    rw [find_context_eof_eq]
    rw [find_context_core_empty nfc lines [] rfl]
    have hne : ((lines.length : Int) - ((List.length ([] : List String) : Nat) : Int)) ≠ -1 := by
      simp only [List.length_nil, Nat.cast_zero, sub_zero]
      omega
    rw [if_pos hne]
    simp

/-- C8 counterexample: with `anchor_at_eof` true, the empty context is
reported at index `lines.length = 1`, not at the requested `start = 0`. -/
theorem claim_C8_counterexample :
    find_context (fun s => s) ["a"] [] 0 true = (1, 0) ∧
      ((1 : Int), (0 : Int)) ≠ ((0 : Int), (0 : Int)) := by
  constructor
  · decide
  · decide

theorem intRange_find_eq_none {p : Int → Bool} {i n : Int}
    (h : ∀ m : Int, i ≤ m → m < n → p m = false) :
    (intRange i n).find? p = none := by
  cases hf : (intRange i n).find? p with
  | none => rfl
  | some j =>
    obtain ⟨h1, h2, h3, _⟩ := intRange_find_some hf
    rw [h j h1 h2] at h3
    cases h3

/-- C1 (amended): for a non-empty context block (`find_context_core`,
i.e. `find_context` with `anchor_at_eof` false) the matcher tries three
tiers in order, each scanning every window position from `start` to the
end of the file before falling back: tier 1 (exact canonicalized
comparison) returns the first matching index with fuzz 0; if no tier-1
window matches, tier 2 (trailing whitespace stripped before
canonicalization) returns the first matching index with fuzz 1; if no
tier-2 window matches either, tier 3 (leading and trailing whitespace
stripped) returns the first matching index with fuzz 100; if no tier
matches, the result is the sentinel `(-1, 0)`.  In particular, if the
context block occurs literally as a contiguous sub-sequence of the file
lines at some index at or after a non-negative `start`, the matcher
succeeds with fuzz 0 — but at the first canonically matching index,
which need not itself be a literal occurrence. -/
theorem claim_C1_three_tier (nfc : String → String) (lines context : List String)
    (start : Int) (hctx : context ≠ []) :
    (∀ j : Int, start ≤ j → j < (lines.length : Int) →
      tier1At nfc lines context j = true →
      ∃ i : Int, find_context_core nfc lines context start = (i, 0) ∧
        start ≤ i ∧ i ≤ j ∧ tier1At nfc lines context i = true ∧
        ∀ m : Int, start ≤ m → m < i → tier1At nfc lines context m = false) ∧
    ((∀ m : Int, start ≤ m → m < (lines.length : Int) →
        tier1At nfc lines context m = false) →
      ∀ j : Int, start ≤ j → j < (lines.length : Int) →
      tier2At nfc lines context j = true →
      ∃ i : Int, find_context_core nfc lines context start = (i, 1) ∧
        start ≤ i ∧ i ≤ j ∧ tier2At nfc lines context i = true ∧
        ∀ m : Int, start ≤ m → m < i → tier2At nfc lines context m = false) ∧
    ((∀ m : Int, start ≤ m → m < (lines.length : Int) →
        tier1At nfc lines context m = false) →
      (∀ m : Int, start ≤ m → m < (lines.length : Int) →
        tier2At nfc lines context m = false) →
      ∀ j : Int, start ≤ j → j < (lines.length : Int) →
      tier3At nfc lines context j = true →
      ∃ i : Int, find_context_core nfc lines context start = (i, 100) ∧
        start ≤ i ∧ i ≤ j ∧ tier3At nfc lines context i = true ∧
        ∀ m : Int, start ≤ m → m < i → tier3At nfc lines context m = false) ∧
    ((∀ m : Int, start ≤ m → m < (lines.length : Int) →
        tier1At nfc lines context m = false) →
      (∀ m : Int, start ≤ m → m < (lines.length : Int) →
        tier2At nfc lines context m = false) →
      (∀ m : Int, start ≤ m → m < (lines.length : Int) →
        tier3At nfc lines context m = false) →
      find_context_core nfc lines context start = (-1, 0)) ∧
    (0 ≤ start → ∀ jn : Nat, start ≤ (jn : Int) →
      jn + context.length ≤ lines.length →
      (lines.drop jn).take context.length = context →
      ∃ i : Int, find_context_core nfc lines context start = (i, 0) ∧
        start ≤ i ∧ i ≤ (jn : Int)) := by
  have hc : ¬ context.length = 0 := by
    simpa [List.length_eq_zero] using hctx
  refine ⟨?_, ?_, ?_, ?_, ?_⟩
  · intro j hj1 hj2 hj3
    obtain ⟨i, hi⟩ := intRange_find_isSome (fun i => tier1At nfc lines context i) hj1 hj2 hj3
    obtain ⟨ha, hb, hp, hmin⟩ := intRange_find_some hi
    refine ⟨i, ?_, ha, ?_, hp, hmin⟩
    · unfold find_context_core
      simp only [hc, if_false, hi]
    · by_contra hcon
      have := hmin j hj1 (by omega)
      rw [hj3] at this
      cases this
  · intro hno1 j hj1 hj2 hj3
    have hn1 : List.find? (fun i => tier1At nfc lines context i) (intRange start (lines.length : Int)) = none :=
      intRange_find_eq_none hno1
    obtain ⟨i, hi⟩ := intRange_find_isSome (fun i => tier2At nfc lines context i) hj1 hj2 hj3
    obtain ⟨ha, hb, hp, hmin⟩ := intRange_find_some hi
    refine ⟨i, ?_, ha, ?_, hp, hmin⟩
    · unfold find_context_core
      simp only [hc, if_false, hn1, hi]
    · by_contra hcon
      have := hmin j hj1 (by omega)
      rw [hj3] at this
      cases this
  · intro hno1 hno2 j hj1 hj2 hj3
    have hn1 : List.find? (fun i => tier1At nfc lines context i) (intRange start (lines.length : Int)) = none :=
      intRange_find_eq_none hno1
    have hn2 : List.find? (fun i => tier2At nfc lines context i) (intRange start (lines.length : Int)) = none :=
      intRange_find_eq_none hno2
    obtain ⟨i, hi⟩ := intRange_find_isSome (fun i => tier3At nfc lines context i) hj1 hj2 hj3
    obtain ⟨ha, hb, hp, hmin⟩ := intRange_find_some hi
    refine ⟨i, ?_, ha, ?_, hp, hmin⟩
    · unfold find_context_core
      simp only [hc, if_false, hn1, hn2, hi]
    · by_contra hcon
      have := hmin j hj1 (by omega)
      rw [hj3] at this
      cases this
  · intro hno1 hno2 hno3
    have hn1 : List.find? (fun i => tier1At nfc lines context i) (intRange start (lines.length : Int)) = none :=
      intRange_find_eq_none hno1
    have hn2 : List.find? (fun i => tier2At nfc lines context i) (intRange start (lines.length : Int)) = none :=
      intRange_find_eq_none hno2
    have hn3 : List.find? (fun i => tier3At nfc lines context i) (intRange start (lines.length : Int)) = none :=
      intRange_find_eq_none hno3
    unfold find_context_core
    simp only [hc, if_false, hn1, hn2, hn3]
  · intro hstart jn hjn hlen hocc
    exact find_context_core_succeeds_of_literal nfc hstart jn hjn hlen hocc

/-- C1 counterexample: the context `["-"]` occurs literally only at
index 1 of `["–", "-"]` (en dash first), yet the matcher returns index 0
with fuzz 0, because the en-dash window is canonically equivalent; so
the matcher does not return an index at which the context block is a
contiguous sub-sequence of the file lines. -/
theorem claim_C1_counterexample :
    find_context_core (fun s => s) ["–", "-"] ["-"] 0 = (0, 0) ∧
      ¬ ((["–", "-"].drop 0).take 1 = ["-"]) ∧
      (["–", "-"].drop 1).take 1 = ["-"] := by
  refine ⟨by decide, by decide, by decide⟩

/-- Witness for `claim_C1_three_tier`: the literal-occurrence component
applied at a concrete input. -/
theorem claim_C1_witness :
    ∃ i : Int, find_context_core (fun s => s) ["x", "a"] ["a"] 0 = (i, 0) ∧
      0 ≤ i ∧ i ≤ (1 : Int) :=
  (claim_C1_three_tier (fun s => s) ["x", "a"] ["a"] 0 (by decide)).2.2.2.2
    (by decide) 1 (by decide) (by decide) (by decide)

/-- C2 (confirmed): with `anchor_at_eof` set, `find_context` first
attempts the three-tier search starting exactly at
`lines.length - context.length`; a tail attempt that does not report the
sentinel is returned as is; if the tail attempt reports not found, the
full three-tier scan is retried from `start` and the result is the
retry's index with its tier fuzz increased by exactly 10000; hence an
EOF-anchored hunk whose context occurs literally only at or after
`start` (not as the file's tail) still succeeds, with fuzz at least
10000 when the tail attempt failed. -/
theorem claim_C2_eof_anchor (nfc : String → String) (lines context : List String)
    (start : Int) :
    (∀ i f : Int,
      find_context_core nfc lines context
        ((lines.length : Int) - (context.length : Int)) = (i, f) →
      i ≠ -1 → find_context nfc lines context start true = (i, f)) ∧
    ((find_context_core nfc lines context
        ((lines.length : Int) - (context.length : Int))).1 = -1 →
      find_context nfc lines context start true =
        ((find_context_core nfc lines context start).1,
         (find_context_core nfc lines context start).2 + 10000)) ∧
    ((find_context_core nfc lines context
        ((lines.length : Int) - (context.length : Int))).1 = -1 →
      (find_context_core nfc lines context start).1 ≠ -1 →
      (find_context nfc lines context start true).1 ≠ -1 ∧
        10000 ≤ (find_context nfc lines context start true).2) ∧
    (0 ≤ start → ∀ jn : Nat, start ≤ (jn : Int) →
      jn + context.length ≤ lines.length →
      (lines.drop jn).take context.length = context →
      (find_context nfc lines context start true).1 ≠ -1) := by
  refine ⟨?_, ?_, ?_, ?_⟩
  · intro i f h hi
    rw [find_context_eof_eq, h]
    exact if_pos hi
  · intro h
    rw [find_context_eof_eq, if_neg (not_not_intro h)]
  · intro h hne
    rw [find_context_eof_eq, if_neg (not_not_intro h)]
    refine ⟨hne, ?_⟩
    have := find_context_core_snd_nonneg nfc lines context start
    simp only []
    omega
  · intro hstart jn hjn hlen hocc
    by_cases hm : (find_context_core nfc lines context
        ((lines.length : Int) - (context.length : Int))).1 = -1
    · rw [find_context_eof_eq, if_neg (not_not_intro hm)]
      obtain ⟨i, hi, hge, _⟩ :=
        find_context_core_succeeds_of_literal nfc hstart jn hjn hlen hocc
      rw [hi]
      simp only []
      omega
    · rw [find_context_eof_eq, if_pos hm]
      exact hm

/-- Witness for `claim_C2_eof_anchor`: an EOF-anchored context that
matches only at the start of the file, not at its tail, still succeeds. -/
theorem claim_C2_witness :
    (find_context (fun s => s) ["a", "b"] ["a"] 0 true).1 ≠ -1 :=
  (claim_C2_eof_anchor (fun s => s) ["a", "b"] ["a"] 0).2.2.2
    (by decide) 0 (by decide) (by decide) (by decide)

/-! ### Data model -/

/-- `ActionType` of the source. -/
inductive ActionType where
  | add
  | delete
  | update
  deriving DecidableEq

/-- `Chunk` of the source.  `orig_index` is a JavaScript number, hence
`Int`. -/
structure Chunk where
  orig_index : Int
  del_lines : List String
  ins_lines : List String
  deriving DecidableEq

/-- `PatchAction` of the source. -/
structure PatchAction where
  type : ActionType
  new_file : Option String := none
  chunks : List Chunk := []
  move_path : Option String := none
  deriving DecidableEq

/-- `Patch` of the source; the JavaScript record is modelled as an
insertion-ordered association list (lookup takes the first match). -/
structure Patch where
  actions : List (String × PatchAction)
  deriving DecidableEq

/-- `FileChange` of the source. -/
structure FileChange where
  type : ActionType
  old_content : Option String := none
  new_content : Option String := none
  move_path : Option String := none
  deriving DecidableEq

/-- `Commit` of the source. -/
structure Commit where
  changes : List (String × FileChange)
  deriving DecidableEq

/-- A filesystem effect issued by `apply_commit` through the injected
accessors, in order of issue. -/
inductive FileOp where
  | write (p : String) (content : String)
  | remove (p : String)
  deriving DecidableEq

/-- First-match lookup in an insertion-ordered association list,
modelling JavaScript record access. -/
def lookupA {β : Type} : List (String × β) → String → Option β
  | [], _ => none
  | (k, v) :: rest, key => if k = key then some v else lookupA rest key

/-! ### Directive markers (the `*_PREFIX` constants of the source;
renamed with a `_MARKER` suffix). -/

def ADD_FILE_MARKER : String := "*** Add File: "
def DELETE_FILE_MARKER : String := "*** Delete File: "
def UPDATE_FILE_MARKER : String := "*** Update File: "
def MOVE_FILE_TO_MARKER : String := "*** Move File to: "
def PATCH_MARKER : String := "*** Begin Patch\n"
def PATCH_SUFFIX_MARKER : String := "*** End Patch"
def END_OF_FILE_MARKER : String := "*** EOF"
def HUNK_ADD_LINE_MARKER : String := "+"

/-! ### Chunk builder (`peek_next_section`) -/

/-- The scanning mode of `peek_next_section`. -/
inductive PeekMode where
  | keep
  | add
  | del
  deriving DecidableEq

/-- Classification of one hunk line by its first character, returning
the mode and the line with its marker stripped (an unmarked line is
treated as context with an implicit leading space inserted, so stripping
the marker returns it unchanged). -/
def classifyLine (s : String) : PeekMode × String :=
  match s.data with
  | c :: rest =>
    if c = '+' then (PeekMode.add, ⟨rest⟩)
    else if c = '-' then (PeekMode.del, ⟨rest⟩)
    else if c = ' ' then (PeekMode.keep, ⟨rest⟩)
    else (PeekMode.keep, s)
  | [] => (PeekMode.keep, "")

/-- The boundary test stopping the `peek_next_section` scan. -/
def peekBoundary (s : String) : Bool :=
  [ "@@", PATCH_SUFFIX_MARKER, UPDATE_FILE_MARKER, DELETE_FILE_MARKER,
    ADD_FILE_MARKER, END_OF_FILE_MARKER ].any (fun p => jsStartsWith s (jsTrim p))

/-- Closing the pending deletion/insertion accumulators into one chunk
whose `orig_index` is the old-line count at which the deletions started
(`old.length - delAcc.length`); a no-op when nothing is pending. -/
def flushChunks (old delAcc insAcc : List String) (chunks : List Chunk) : List Chunk :=
  if insAcc.length ≠ 0 ∨ delAcc.length ≠ 0 then
    chunks ++ [⟨(old.length : Int) - (delAcc.length : Int), delAcc, insAcc⟩]
  else chunks

/-- End of the `peek_next_section` scan: flush any pending
deletion/insertion accumulators into a final chunk, then consume an
explicit end-of-file marker line if present. -/
def peekFinish (lines : List String) (index : Nat) (old delAcc insAcc : List String)
    (chunks : List Chunk) : List String × List Chunk × Nat × Bool :=
  let chunks2 := flushChunks old delAcc insAcc chunks
  match lines.get? index with
  | some s =>
    if s = END_OF_FILE_MARKER then (old, chunks2, index + 1, true)
    else (old, chunks2, index, false)
  | none => (old, chunks2, index, false)

/-- The scanning loop of `peek_next_section`.  The `Nat` counter is the
number of lines remaining from `index` to the end (the caller passes
exactly `lines.length - index`), making the recursion structural. -/
def peekAux (lines : List String) :
    Nat → Nat → List String → List String → List String → List Chunk → PeekMode →
    Except String (List String × List Chunk × Nat × Bool)
  | 0, index, old, delAcc, insAcc, chunks, _ =>
    Except.ok (peekFinish lines index old delAcc insAcc chunks)
  | k + 1, index, old, delAcc, insAcc, chunks, mode =>
    match lines.get? index with
    | none => Except.ok (peekFinish lines index old delAcc insAcc chunks)
    | some s =>
      if peekBoundary s then
        Except.ok (peekFinish lines index old delAcc insAcc chunks)
      else if s = "***" then
        Except.ok (peekFinish lines index old delAcc insAcc chunks)
      else if jsStartsWith s "***" then
        Except.error ("Invalid Line: " ++ s)
      else
        let md := classifyLine s
        if md.1 = PeekMode.keep ∧ ¬ mode = PeekMode.keep then
          peekAux lines k (index + 1) (old ++ [md.2]) [] []
            (flushChunks old delAcc insAcc chunks) PeekMode.keep
        else
          match md.1 with
          | PeekMode.del =>
            peekAux lines k (index + 1) (old ++ [md.2]) (delAcc ++ [md.2]) insAcc
              chunks PeekMode.del
          | PeekMode.add =>
            peekAux lines k (index + 1) old delAcc (insAcc ++ [md.2])
              chunks PeekMode.add
          | PeekMode.keep =>
            peekAux lines k (index + 1) (old ++ [md.2]) delAcc insAcc
              chunks PeekMode.keep

/-- `peek_next_section` of the source: scans one hunk starting at
`index`, returning the context block (`old`, the keep and delete lines
in original-file order), the chunk list with hunk-local offsets, the
index of the first unconsumed line, and whether an end-of-file marker
terminated the hunk. -/
def peek_next_section (lines : List String) (index : Nat) :
    Except String (List String × List Chunk × Nat × Bool) :=
  peekAux lines (lines.length - index) index [] [] [] [] PeekMode.keep

/-! ### Directive parser -/

/-- `Parser.read_str` of the source: fails when past the end of input;
when the current line starts with the marker, consumes it and returns
the rest of the line; otherwise returns the empty string without
consuming. -/
def read_str (lines : List String) (index : Nat) (pre : String) :
    Except String (String × Nat) :=
  match lines.get? index with
  | none =>
    Except.error ("Index: " ++ toString index ++ " >= " ++ toString lines.length)
  | some l =>
    if jsStartsWith l pre then
      Except.ok (jsDropChars l pre.data.length, index + 1)
    else Except.ok ("", index)

/-- `Parser.is_done` of the source: past the end of input or the current
line starts with one of the trimmed markers. -/
def is_done (lines : List String) (index : Nat) (markers : List String) : Bool :=
  match lines.get? index with
  | none => true
  | some l => markers.any (fun p => jsStartsWith l (jsTrim p))

/-- The per-file loop of `Parser.parse_update_file`.  State: remaining
fuel (the source loop need not terminate, e.g. on a line starting with
`@@` but not equal to `@@`), the parser's line index, the running file
position `fIdx`, the accumulated absolute chunks, the accumulated fuzz
and whether any hunk so far carried the end-of-file marker (`anyEof` is
an added observation, not returned by the source). -/
def parseUpdateLoop (nfc : String → String) (lines fileLines : List String) :
    Nat → Nat → Int → List Chunk → Int → Bool →
    Except String (List Chunk × Nat × Int × Bool)
  | 0, _, _, _, _, _ => Except.error "Fuel exhausted"
  | fuel + 1, pIdx, fIdx, chunksAcc, fz, anyEof =>
    if is_done lines pIdx [PATCH_SUFFIX_MARKER, UPDATE_FILE_MARKER,
        DELETE_FILE_MARKER, ADD_FILE_MARKER, END_OF_FILE_MARKER] then
      Except.ok (chunksAcc, pIdx, fz, anyEof)
    else
      match read_str lines pIdx "@@ " with
      | Except.error e => Except.error e
      | Except.ok (defStr, pIdx1) =>
        let sp : String × Nat :=
          if defStr = "" ∧ lines.get? pIdx1 = some "@@" then ("@@", pIdx1 + 1)
          else ("", pIdx1)
        if ¬ (defStr ≠ "" ∨ sp.1 ≠ "" ∨ fIdx = 0) then
          Except.error ("Invalid Line:\n" ++ ((lines.get? sp.2).getD "undefined"))
        else
          match peek_next_section lines sp.2 with
          | Except.error e => Except.error e
          | Except.ok (ctx, localChunks, pIdx3, eofFlag) =>
            let r := find_context nfc fileLines ctx fIdx eofFlag
            if r.1 = -1 then
              Except.error ((if eofFlag then "Invalid EOF Context " else "Invalid Context ")
                ++ toString fIdx ++ ":\n" ++ joinNl ctx)
            else
              parseUpdateLoop nfc lines fileLines fuel pIdx3
                (r.1 + (ctx.length : Int))
                (chunksAcc ++ localChunks.map
                  (fun c => { c with orig_index := c.orig_index + r.1 }))
                (fz + r.2) (anyEof || eofFlag)

/-- `Parser.parse_update_file` of the source, returning the action, the
parser's new line index, the fuzz contributed by this file and the added
`anyEof` observation. -/
def parse_update_file (nfc : String → String) (fuel : Nat) (lines : List String)
    (pIdx : Nat) (text : String) :
    Except String (PatchAction × Nat × Int × Bool) :=
  match parseUpdateLoop nfc lines (splitNl text) fuel pIdx 0 [] 0 false with
  | Except.error e => Except.error e
  | Except.ok (chunks, pIdx2, fz, anyEof) =>
    Except.ok ({ type := ActionType.update, chunks := chunks }, pIdx2, fz, anyEof)

/-- The loop of `Parser.parse_add_file`; the `Nat` counter is exactly
`lines.length - index`, making the recursion structural. -/
def parseAddLoop (lines : List String) :
    Nat → Nat → List String → Except String (List String × Nat)
  | 0, index, acc => Except.ok (acc, index)
  | k + 1, index, acc =>
    if is_done lines index [PATCH_SUFFIX_MARKER, UPDATE_FILE_MARKER,
        DELETE_FILE_MARKER, ADD_FILE_MARKER] then
      Except.ok (acc, index)
    else
      match read_str lines index "" with
      | Except.error e => Except.error e
      | Except.ok (s, index2) =>
        if ¬ jsStartsWith s HUNK_ADD_LINE_MARKER then
          Except.error ("Invalid Add File Line: " ++ s)
        else parseAddLoop lines k index2 (acc ++ [jsDropChars s 1])

/-- `Parser.parse_add_file` of the source. -/
def parse_add_file (lines : List String) (index : Nat) :
    Except String (PatchAction × Nat) :=
  match parseAddLoop lines (lines.length - index) index [] with
  | Except.error e => Except.error e
  | Except.ok (ls, index2) =>
    Except.ok ({ type := ActionType.add, new_file := some (joinNl ls), chunks := [] }, index2)

/-- The main loop of `Parser.parse`: dispatches on Update/Delete/Add
headers until the end-patch marker, accumulating the action list and the
fuzz.  Returns the actions, the total fuzz and the final index. -/
def parseLoop (nfc : String → String) (lines : List String)
    (orig : List (String × String)) :
    Nat → Nat → List (String × PatchAction) → Int →
    Except String (List (String × PatchAction) × Int × Nat)
  | 0, _, _, _ => Except.error "Fuel exhausted"
  | fuel + 1, index, acts, fz =>
    if is_done lines index [PATCH_SUFFIX_MARKER] then
      match lines.get? index with
      | none => Except.error "TypeError: cannot read properties of undefined"
      | some l =>
        if jsStartsWith l (jsTrim PATCH_SUFFIX_MARKER) then
          Except.ok (acts, fz, index + 1)
        else Except.error "Missing End Patch"
    else
      match read_str lines index UPDATE_FILE_MARKER with
      | Except.error e => Except.error e
      | Except.ok (p1, idx1) =>
        if p1 ≠ "" then
          if (lookupA acts p1).isSome then
            Except.error ("Update File Error: Duplicate Path: " ++ p1)
          else
            match read_str lines idx1 MOVE_FILE_TO_MARKER with
            | Except.error e => Except.error e
            | Except.ok (moveTo, idx2) =>
              match lookupA orig p1 with
              | none => Except.error ("Update File Error: Missing File: " ++ p1)
              | some text =>
                match parse_update_file nfc fuel lines idx2 text with
                | Except.error e => Except.error e
                | Except.ok (action, idx3, fz2, _) =>
                  parseLoop nfc lines orig fuel idx3
                    (acts ++ [(p1, { action with
                      move_path := if moveTo = "" then none else some moveTo })])
                    (fz + fz2)
        else
          match read_str lines idx1 DELETE_FILE_MARKER with
          | Except.error e => Except.error e
          | Except.ok (p2, idx2) =>
            if p2 ≠ "" then
              if (lookupA acts p2).isSome then
                Except.error ("Delete File Error: Duplicate Path: " ++ p2)
              else if (lookupA orig p2).isNone then
                Except.error ("Delete File Error: Missing File: " ++ p2)
              else
                parseLoop nfc lines orig fuel idx2
                  (acts ++ [(p2, { type := ActionType.delete, chunks := [] })]) fz
            else
              match read_str lines idx2 ADD_FILE_MARKER with
              | Except.error e => Except.error e
              | Except.ok (p3, idx3) =>
                if p3 ≠ "" then
                  if (lookupA acts p3).isSome then
                    Except.error ("Add File Error: Duplicate Path: " ++ p3)
                  else if (lookupA orig p3).isSome then
                    Except.error ("Add File Error: File already exists: " ++ p3)
                  else
                    match parse_add_file lines idx3 with
                    | Except.error e => Except.error e
                    | Except.ok (action, idx4) =>
                      parseLoop nfc lines orig fuel idx4 (acts ++ [(p3, action)]) fz
                else
                  Except.error ("Unknown Line: " ++ ((lines.get? idx3).getD "undefined"))

/-- `text_to_patch` of the source: envelope check on the trimmed input,
then the main parse loop starting at line index 1. -/
def text_to_patch (nfc : String → String) (fuel : Nat) (text : String)
    (orig : List (String × String)) : Except String (Patch × Int) :=
  let lines := splitNl (jsTrim text)
  let ok0 : Bool := jsStartsWith ((lines.get? 0).getD "") (jsTrim PATCH_MARKER)
  let okLast : Bool :=
    decide ((lines.get? (lines.length - 1)).getD "" = jsTrim PATCH_SUFFIX_MARKER)
  if lines.length < 2 ∨ ok0 = false ∨ okLast = false then
    Except.error ("Invalid patch text: " ++
      (if lines.length < 2 then "Patch text must have at least two lines."
       else if ok0 = false then "Patch text must start with the correct patch prefix."
       else if okLast = false then "Patch text must end with the correct patch suffix."
       else ""))
  else
    match parseLoop nfc lines orig fuel 1 [] 0 with
    | Except.error e => Except.error e
    | Except.ok (acts, fz, _) => Except.ok ({ actions := acts }, fz)

/-- Appends a path to the accumulator unless already present, modelling
insertion into a JavaScript `Set`. -/
def addUnique (acc : List String) (s : String) : List String :=
  if s ∈ acc then acc else acc ++ [s]

/-- `identify_files_needed` of the source: the Update and Delete targets
of the trimmed patch text, deduplicated in insertion order. -/
def identify_files_needed (text : String) : List String :=
  (splitNl (jsTrim text)).foldl
    (fun acc line =>
      let acc2 :=
        if jsStartsWith line UPDATE_FILE_MARKER then
          addUnique acc (jsDropChars line UPDATE_FILE_MARKER.data.length)
        else acc
      if jsStartsWith line DELETE_FILE_MARKER then
        addUnique acc2 (jsDropChars line DELETE_FILE_MARKER.data.length)
      else acc2)
    []

/-- `identify_files_added` of the source. -/
def identify_files_added (text : String) : List String :=
  (splitNl (jsTrim text)).foldl
    (fun acc line =>
      if jsStartsWith line ADD_FILE_MARKER then
        addUnique acc (jsDropChars line ADD_FILE_MARKER.data.length)
      else acc)
    []

/-! ### Commit builder -/

/-- The chunk-application loop of `_get_updated_file`: copy the original
lines between the cursor and `orig_index`, append the insertions, skip
the deletions, after validating the two monotonicity checks. -/
def getUpdatedLoop (origLines : List String) (path : String) :
    List Chunk → Int → List String → Except String (List String)
  | [], origIndex, dest => Except.ok (dest ++ jsSliceFrom origLines origIndex)
  | c :: rest, origIndex, dest =>
    if c.orig_index > (origLines.length : Int) then
      Except.error (path ++ ": chunk.orig_index " ++ toString c.orig_index ++
        " > len(lines) " ++ toString origLines.length)
    else if origIndex > c.orig_index then
      Except.error (path ++ ": orig_index " ++ toString origIndex ++
        " > chunk.orig_index " ++ toString c.orig_index)
    else
      getUpdatedLoop origLines path rest (c.orig_index + (c.del_lines.length : Int))
        (dest ++ jsSlice origLines origIndex c.orig_index ++ c.ins_lines)

/-- `_get_updated_file` of the source. -/
def _get_updated_file (text : String) (action : PatchAction) (path : String) :
    Except String String :=
  if action.type ≠ ActionType.update then
    Except.error "Error: Expected UPDATE action"
  else
    match getUpdatedLoop (splitNl text) path action.chunks 0 [] with
    | Except.error e => Except.error e
    | Except.ok dest => Except.ok (joinNl dest)

/-- The per-action loop of `patch_to_commit`. -/
def patchToCommitLoop (orig : List (String × String)) :
    List (String × PatchAction) → List (String × FileChange) →
    Except String (List (String × FileChange))
  | [], acc => Except.ok acc
  | (pathKey, action) :: rest, acc =>
    match action.type with
    | ActionType.delete =>
      patchToCommitLoop orig rest (acc ++ [(pathKey,
        { type := ActionType.delete, old_content := lookupA orig pathKey })])
    | ActionType.add =>
      patchToCommitLoop orig rest (acc ++ [(pathKey,
        { type := ActionType.add,
          new_content := some (action.new_file.getD "") })])
    | ActionType.update =>
      match lookupA orig pathKey with
      | none => Except.error "TypeError: cannot read properties of undefined"
      | some t =>
        match _get_updated_file t action pathKey with
        | Except.error e => Except.error e
        | Except.ok newContent =>
          patchToCommitLoop orig rest (acc ++ [(pathKey,
            { type := ActionType.update, old_content := some t,
              new_content := some newContent,
              move_path := action.move_path })])

/-- `patch_to_commit` of the source. -/
def patch_to_commit (patch : Patch) (orig : List (String × String)) :
    Except String Commit :=
  match patchToCommitLoop orig patch.actions [] with
  | Except.error e => Except.error e
  | Except.ok changes => Except.ok { changes := changes }

/-! ### Filesystem applier -/

/-- `load_files` of the source: reads every path through the injected
accessor, failing with "File not found" on the first failure. -/
def load_files (paths : List String) (openFn : String → Option String) :
    Except String (List (String × String)) :=
  match paths with
  | [] => Except.ok []
  | p :: rest =>
    match openFn p with
    | none => Except.error ("File not found: " ++ p)
    | some c =>
      match load_files rest openFn with
      | Except.error e => Except.error e
      | Except.ok acc => Except.ok ((p, c) :: acc)

/-- `apply_commit` of the source, with the injected `write`/`remove`
accessors reified as an ordered list of filesystem operations. -/
def apply_commit (commit : Commit) : List FileOp :=
  commit.changes.foldl
    (fun acc pc =>
      match pc.2.type with
      | ActionType.delete => acc ++ [FileOp.remove pc.1]
      | ActionType.add => acc ++ [FileOp.write pc.1 (pc.2.new_content.getD "")]
      | ActionType.update =>
        match pc.2.move_path with
        | some mp =>
          if mp = "" then acc ++ [FileOp.write pc.1 (pc.2.new_content.getD "")]
          else acc ++ [FileOp.write mp (pc.2.new_content.getD ""), FileOp.remove pc.1]
        | none => acc ++ [FileOp.write pc.1 (pc.2.new_content.getD "")])
    []

/-- `process_patch` of the source: reject texts not literally starting
with the begin-patch marker followed by a newline, read the referenced
files, parse, build the commit and apply it.  The filesystem is modelled
by the injected `openFn`; the writes/removals are returned in order. -/
def process_patch (nfc : String → String) (fuel : Nat) (text : String)
    (openFn : String → Option String) : Except String (String × List FileOp) :=
  if ¬ (jsStartsWith text PATCH_MARKER = true) then
    Except.error "Patch must start with *** Begin Patch\\n"
  else
    match load_files (identify_files_needed text) openFn with
    | Except.error e => Except.error e
    | Except.ok orig =>
      match text_to_patch nfc fuel text orig with
      | Except.error e => Except.error e
      | Except.ok (patch, _) =>
        match patch_to_commit patch orig with
        | Except.error e => Except.error e
        | Except.ok commit => Except.ok ("Done!", apply_commit commit)

/-! ### Envelope and entry-point claims -/

/-- C5 (amended): `text_to_patch` fails immediately with a diagnostic
message identifying the violated condition unless the input, after
trimming, has at least two lines, its first line STARTS WITH the
begin-patch marker (a prefix test, not equality: a first line with extra
text after the marker is accepted) and its last line equals the
end-patch marker; when all three conditions hold the function proceeds
to the main parse loop. -/
theorem claim_C5_envelope (nfc : String → String) (fuel : Nat) (text : String)
    (orig : List (String × String)) :
    ((splitNl (jsTrim text)).length < 2 →
      text_to_patch nfc fuel text orig = Except.error
        "Invalid patch text: Patch text must have at least two lines.") ∧
    (¬ (splitNl (jsTrim text)).length < 2 →
      jsStartsWith (((splitNl (jsTrim text)).get? 0).getD "") (jsTrim PATCH_MARKER) = false →
      text_to_patch nfc fuel text orig = Except.error
        "Invalid patch text: Patch text must start with the correct patch prefix.") ∧
    (¬ (splitNl (jsTrim text)).length < 2 →
      jsStartsWith (((splitNl (jsTrim text)).get? 0).getD "") (jsTrim PATCH_MARKER) = true →
      ¬ (((splitNl (jsTrim text)).get? ((splitNl (jsTrim text)).length - 1)).getD ""
          = jsTrim PATCH_SUFFIX_MARKER) →
      text_to_patch nfc fuel text orig = Except.error
        "Invalid patch text: Patch text must end with the correct patch suffix.") ∧
    (¬ (splitNl (jsTrim text)).length < 2 →
      jsStartsWith (((splitNl (jsTrim text)).get? 0).getD "") (jsTrim PATCH_MARKER) = true →
      ((splitNl (jsTrim text)).get? ((splitNl (jsTrim text)).length - 1)).getD ""
        = jsTrim PATCH_SUFFIX_MARKER →
      text_to_patch nfc fuel text orig =
        match parseLoop nfc (splitNl (jsTrim text)) orig fuel 1 [] 0 with
        | Except.error e => Except.error e
        | Except.ok (acts, fz, _) => Except.ok ({ actions := acts }, fz)) := by
  refine ⟨?_, ?_, ?_, ?_⟩
  · intro h1
    unfold text_to_patch
    rw [if_pos (Or.inl h1), if_pos h1]
    rfl
  · intro h1 h2
    unfold text_to_patch
    rw [if_pos (Or.inr (Or.inl h2)), if_neg h1, if_pos h2]
    rfl
  · intro h1 h2 h3
    have h3b : decide (((splitNl (jsTrim text)).get? ((splitNl (jsTrim text)).length - 1)).getD ""
        = jsTrim PATCH_SUFFIX_MARKER) = false := decide_eq_false h3
    unfold text_to_patch
    rw [if_pos (Or.inr (Or.inr h3b)), if_neg h1,
      if_neg (by rw [h2]; decide), if_pos h3b]
    rfl
  · intro h1 h2 h3
    have h3b : decide (((splitNl (jsTrim text)).get? ((splitNl (jsTrim text)).length - 1)).getD ""
        = jsTrim PATCH_SUFFIX_MARKER) = true := decide_eq_true h3
    unfold text_to_patch
    rw [if_neg (by
      intro hcon
      rcases hcon with hc | hc | hc
      · exact h1 hc
      · rw [h2] at hc; cases hc
      · rw [h3b] at hc; cases hc)]

/-- C5 counterexample: a trimmed input whose first line carries extra
text after the begin-patch marker is not rejected — `text_to_patch`
succeeds on it, contradicting the claim that the first line must equal
the marker. -/
theorem claim_C5_counterexample :
    text_to_patch (fun s => s) 10 "*** Begin PatchX\n*** End Patch" [] =
      Except.ok ({ actions := [] }, 0) ∧
    ¬ (((splitNl (jsTrim "*** Begin PatchX\n*** End Patch")).get? 0).getD ""
        = "*** Begin Patch") := by
  exact ⟨rfl, by decide⟩

/-- Witness for `claim_C5_envelope`: a one-line input fails with the
two-lines message. -/
theorem claim_C5_witness :
    text_to_patch (fun s => s) 10 "x" [] = Except.error
      "Invalid patch text: Patch text must have at least two lines." :=
  (claim_C5_envelope (fun s => s) 10 "x" []).1 (by decide)

/-- C10 (confirmed): `process_patch` rejects, with the patch error
`Patch must start with *** Begin Patch\n`, any input text that does not
literally start with the begin-patch marker followed by a newline —
before consulting the injected file accessor — even though
`text_to_patch`, which trims its input first, accepts some such texts
(e.g. a leading blank line). -/
theorem claim_C10_strict_begin (nfc : String → String) :
    (∀ (fuel : Nat) (text : String) (openFn : String → Option String),
      jsStartsWith text PATCH_MARKER = false →
      process_patch nfc fuel text openFn =
        Except.error "Patch must start with *** Begin Patch\\n") ∧
    (∀ openFn : String → Option String,
      process_patch nfc 10 "\n*** Begin Patch\n*** End Patch" openFn =
        Except.error "Patch must start with *** Begin Patch\\n") ∧
    text_to_patch nfc 10 "\n*** Begin Patch\n*** End Patch" [] =
      Except.ok ({ actions := [] }, 0) := by
  refine ⟨?_, ?_, ?_⟩
  · intro fuel text openFn h
    unfold process_patch
    rw [if_pos (by simp [h])]
  · intro openFn
    unfold process_patch
    rw [if_pos (by simp [show jsStartsWith "\n*** Begin Patch\n*** End Patch" PATCH_MARKER = false from rfl])]
  · rfl

/-- Witness for `claim_C10_strict_begin` at a concrete input. -/
theorem claim_C10_witness :
    process_patch (fun s => s) 10 "x" (fun _ => none) =
      Except.error "Patch must start with *** Begin Patch\\n" :=
  (claim_C10_strict_begin (fun s => s)).1 10 "x" (fun _ => none) (by decide)

/-! ### Commit-builder claim (C3) -/

/-- The cursor position after an optional previous chunk, per the claim
text: zero before the first chunk, otherwise the previous chunk's
`orig_index` plus the number of lines it deleted. -/
def chunkCursor : Option Chunk → Int
  | none => 0
  | some c => c.orig_index + (c.del_lines.length : Int)

/-- The chunk preceding position `k`, continuing from an earlier
previous chunk `prev` (used to state the cursor of position `k` in
closed form). -/
def prevChunkFrom (prev : Option Chunk) (chunks : List Chunk) (k : Nat) : Option Chunk :=
  if k = 0 then prev else chunks.get? (k - 1)

/-- The chunk preceding position `k` of a chunk list. -/
def prevChunk (chunks : List Chunk) (k : Nat) : Option Chunk :=
  prevChunkFrom none chunks k

/-- Modelled from the claim text: the output lines prescribed by C3 —
for each chunk in order, the original lines from the cursor up to the
chunk's `orig_index` followed by its inserted lines (the deleted lines
are skipped by advancing the cursor past them), and after the last chunk
the remaining original lines. -/
def updatedSpecGo (origLines : List String) : Option Chunk → List Chunk → List String
  | prev, [] => jsSliceFrom origLines (chunkCursor prev)
  | prev, c :: rest =>
    jsSlice origLines (chunkCursor prev) c.orig_index ++ c.ins_lines ++
      updatedSpecGo origLines (some c) rest

/-- The full output prescribed by C3. -/
def updatedFileSpecLines (origLines : List String) (chunks : List Chunk) : List String :=
  updatedSpecGo origLines none chunks

theorem prevChunkFrom_cons (prev : Option Chunk) (c : Chunk) (rest : List Chunk)
    (k : Nat) : prevChunkFrom (some c) rest k = prevChunkFrom prev (c :: rest) (k + 1) := by
  unfold prevChunkFrom
  cases k with
  | zero => simp
  | succ k => simp

theorem getUpdatedLoop_ok (origLines : List String) (path : String) :
    ∀ (chunks : List Chunk) (prev : Option Chunk) (dest : List String),
      (∀ (k : Nat) (c : Chunk), chunks.get? k = some c →
        c.orig_index ≤ (origLines.length : Int) ∧
        chunkCursor (prevChunkFrom prev chunks k) ≤ c.orig_index) →
      getUpdatedLoop origLines path chunks (chunkCursor prev) dest =
        Except.ok (dest ++ updatedSpecGo origLines prev chunks) := by
  intro chunks
  induction chunks with
  | nil => intro prev dest _; rfl
  | cons c rest ih =>
    intro prev dest h
    obtain ⟨hlen, hcur⟩ := h 0 c rfl
    unfold getUpdatedLoop
    rw [if_neg (by omega), if_neg (by simpa [prevChunkFrom, chunkCursor] using hcur)]
    have hrec := ih (some c)
      (dest ++ jsSlice origLines (chunkCursor prev) c.orig_index ++ c.ins_lines)
      (fun k c2 hk => by
        have := h (k + 1) c2 (by simpa using hk)
        rwa [← prevChunkFrom_cons prev] at this)
    have hcc : c.orig_index + (c.del_lines.length : Int) = chunkCursor (some c) := rfl
    rw [hcc, hrec]
    simp [updatedSpecGo, chunkCursor, prevChunkFrom, List.append_assoc]

theorem getUpdatedLoop_error (origLines : List String) (path : String) :
    ∀ (chunks : List Chunk) (prev : Option Chunk) (dest : List String)
      (k : Nat) (c : Chunk), chunks.get? k = some c →
      (c.orig_index > (origLines.length : Int) ∨
        chunkCursor (prevChunkFrom prev chunks k) > c.orig_index) →
      ∃ e, getUpdatedLoop origLines path chunks (chunkCursor prev) dest =
        Except.error e := by
  intro chunks
  induction chunks with
  | nil => intro prev dest k c hk; simp at hk
  | cons c0 rest ih =>
    intro prev dest k c hk hviol
    unfold getUpdatedLoop
    by_cases h1 : c0.orig_index > (origLines.length : Int)
    · exact ⟨_, by rw [if_pos h1]⟩
    · rw [if_neg h1]
      by_cases h2 : chunkCursor prev > c0.orig_index
      · exact ⟨_, by rw [if_pos h2]⟩
      · rw [if_neg h2]
        cases k with
        | zero =>
          exfalso
          simp only [List.get?] at hk
          cases hk
          rcases hviol with hv | hv
          · exact h1 hv
          · exact h2 (by simpa [prevChunkFrom, chunkCursor] using hv)
        | succ k =>
          have hk2 : rest.get? k = some c := by simpa using hk
          have hviol2 : c.orig_index > (origLines.length : Int) ∨
              chunkCursor (prevChunkFrom (some c0) rest k) > c.orig_index := by
            rwa [prevChunkFrom_cons prev]
          have hcc : c0.orig_index + (c0.del_lines.length : Int) = chunkCursor (some c0) := rfl
          rw [hcc]
          exact ih (some c0)
            (dest ++ jsSlice origLines (chunkCursor prev) c0.orig_index ++ c0.ins_lines)
            k c hk2 hviol2

/-- C3 (confirmed): for every original text and Update action,
`_get_updated_file` fails with a patch error exactly when some chunk's
`orig_index` strictly exceeds the original line count or the cursor
already advanced by the previous chunk (its `orig_index` plus the
deletions it consumed) strictly exceeds a later chunk's `orig_index`;
otherwise it returns the text obtained by, for each chunk in order,
copying the original lines between the cursor and `orig_index`,
appending every inserted line, skipping the deleted lines, and after the
last chunk copying the remaining original lines verbatim. -/
theorem claim_C3_commit_builder (text : String) (action : PatchAction) (path : String)
    (htype : action.type = ActionType.update) :
    ((∃ (k : Nat) (c : Chunk), action.chunks.get? k = some c ∧
        (c.orig_index > ((splitNl text).length : Int) ∨
          chunkCursor (prevChunk action.chunks k) > c.orig_index)) →
      ∃ e, _get_updated_file text action path = Except.error e) ∧
    ((∀ (k : Nat) (c : Chunk), action.chunks.get? k = some c →
        c.orig_index ≤ ((splitNl text).length : Int) ∧
        chunkCursor (prevChunk action.chunks k) ≤ c.orig_index) →
      _get_updated_file text action path =
        Except.ok (joinNl (updatedFileSpecLines (splitNl text) action.chunks))) := by
  constructor
  · intro ⟨k, c, hk, hviol⟩
    obtain ⟨e, he⟩ := getUpdatedLoop_error (splitNl text) path action.chunks none [] k c hk hviol
    refine ⟨e, ?_⟩
    unfold _get_updated_file
    rw [if_neg (by simp [htype])]
    rw [show (0 : Int) = chunkCursor none from rfl, he]
  · intro h
    have := getUpdatedLoop_ok (splitNl text) path action.chunks none [] h
    unfold _get_updated_file
    rw [if_neg (by simp [htype])]
    rw [show (0 : Int) = chunkCursor none from rfl, this]
    simp [updatedFileSpecLines]

/-- Witness for `claim_C3_commit_builder`: deleting the middle line of a
three-line file through one chunk. -/
theorem claim_C3_witness :
    _get_updated_file "one\ntwo\nthree"
      { type := ActionType.update, chunks := [⟨1, ["two"], []⟩] } "a.txt" =
      Except.ok (joinNl (updatedFileSpecLines (splitNl "one\ntwo\nthree")
        [⟨1, ["two"], []⟩])) :=
  (claim_C3_commit_builder "one\ntwo\nthree"
    { type := ActionType.update, chunks := [⟨1, ["two"], []⟩] } "a.txt" rfl).2
    (by
      intro k c hk
      cases k with
      | zero =>
        simp only [List.get?, Option.some.injEq] at hk
        subst hk
        constructor <;> decide
      | succ k => simp at hk)

/-! ### Parsed-chunk monotonicity (C4) -/

/-- The C4 invariant: each later chunk starts at or after the line count
consumed by its predecessor (`orig_index` plus the number of deleted
lines); in particular `orig_index` is non-decreasing. -/
def chunksMonotone (cs : List Chunk) : Prop :=
  List.Chain' (fun a b => a.orig_index + (a.del_lines.length : Int) ≤ b.orig_index) cs

theorem mem_of_getLast?_eq {α : Type} {l : List α} {a : α}
    (h : l.getLast? = some a) : a ∈ l := by
  induction l with
  | nil => simp at h
  | cons x xs ih =>
    cases xs with
    | nil =>
      simp only [List.getLast?_singleton, Option.some.injEq] at h
      simp [h]
    | cons y ys =>
      rw [List.getLast?_cons_cons] at h
      exact List.mem_cons_of_mem x (ih h)

theorem mem_of_head?_eq {α : Type} {l : List α} {a : α}
    (h : l.head? = some a) : a ∈ l := by
  cases l with
  | nil => simp at h
  | cons x xs =>
    simp only [List.head?_cons, Option.some.injEq] at h
    simp [h]

theorem flushChunks_invariant (old delAcc insAcc : List String) (chunks : List Chunk)
    (hA : chunksMonotone chunks)
    (hB : ∀ c ∈ chunks, 0 ≤ c.orig_index ∧
      c.orig_index + (c.del_lines.length : Int) ≤
        (old.length : Int) - (delAcc.length : Int))
    (hC : delAcc.length ≤ old.length) :
    chunksMonotone (flushChunks old delAcc insAcc chunks) ∧
    ∀ c ∈ flushChunks old delAcc insAcc chunks, 0 ≤ c.orig_index ∧
      c.orig_index + (c.del_lines.length : Int) ≤ (old.length : Int) := by
  unfold flushChunks
  by_cases hp : insAcc.length ≠ 0 ∨ delAcc.length ≠ 0
  · rw [if_pos hp]
    constructor
    · unfold chunksMonotone at hA ⊢
      rw [List.chain'_append]
      refine ⟨hA, List.chain'_singleton _, ?_⟩
      intro x hx y hy
      simp only [List.head?_cons, Option.mem_def, Option.some.injEq] at hy
      subst hy
      have hxm : x ∈ chunks := mem_of_getLast?_eq (Option.mem_def.mp hx)
      have h2 := (hB x hxm).2
      simpa using h2
    · intro c hc
      rcases List.mem_append.mp hc with hc | hc
      · obtain ⟨h1, h2⟩ := hB c hc
        exact ⟨h1, by omega⟩
      · simp only [List.mem_singleton] at hc
        subst hc
        refine ⟨?_, ?_⟩
        · show (0 : Int) ≤ (old.length : Int) - (delAcc.length : Int)
          omega
        · show (old.length : Int) - (delAcc.length : Int) + (delAcc.length : Int) ≤
            (old.length : Int)
          omega
  · rw [if_neg hp]
    exact ⟨hA, fun c hc => ⟨(hB c hc).1, by have := (hB c hc).2; omega⟩⟩

theorem peekFinish_invariant (lines : List String) (index : Nat)
    (old delAcc insAcc : List String) (chunks : List Chunk)
    (hA : chunksMonotone chunks)
    (hB : ∀ c ∈ chunks, 0 ≤ c.orig_index ∧
      c.orig_index + (c.del_lines.length : Int) ≤
        (old.length : Int) - (delAcc.length : Int))
    (hC : delAcc.length ≤ old.length) :
    (peekFinish lines index old delAcc insAcc chunks).1 = old ∧
    chunksMonotone (peekFinish lines index old delAcc insAcc chunks).2.1 ∧
    ∀ c ∈ (peekFinish lines index old delAcc insAcc chunks).2.1,
      0 ≤ c.orig_index ∧
      c.orig_index + (c.del_lines.length : Int) ≤ (old.length : Int) := by
  obtain ⟨h1, h2⟩ := flushChunks_invariant old delAcc insAcc chunks hA hB hC
  rcases hg : lines.get? index with _ | s
  · simp only [peekFinish, hg]
    exact ⟨by trivial, h1, h2⟩
  · simp only [peekFinish, hg]
    by_cases he : s = END_OF_FILE_MARKER
    · rw [if_pos he]
      exact ⟨by trivial, h1, h2⟩
    · rw [if_neg he]
      exact ⟨by trivial, h1, h2⟩

theorem peekAux_invariant (lines : List String) :
    ∀ (k index : Nat) (old delAcc insAcc : List String) (chunks : List Chunk)
      (mode : PeekMode) (out : List String × List Chunk × Nat × Bool),
      peekAux lines k index old delAcc insAcc chunks mode = Except.ok out →
      chunksMonotone chunks →
      (∀ c ∈ chunks, 0 ≤ c.orig_index ∧
        c.orig_index + (c.del_lines.length : Int) ≤
          (old.length : Int) - (delAcc.length : Int)) →
      delAcc.length ≤ old.length →
      chunksMonotone out.2.1 ∧
      ∀ c ∈ out.2.1, 0 ≤ c.orig_index ∧
        c.orig_index + (c.del_lines.length : Int) ≤ ((out.1).length : Int) := by
  intro k
  induction k with
  | zero =>
    intro index old delAcc insAcc chunks mode out h hA hB hC
    simp only [peekAux] at h
    obtain ⟨hf1, hf2, hf3⟩ := peekFinish_invariant lines index old delAcc insAcc chunks hA hB hC
    cases h
    exact ⟨hf2, by rw [hf1]; exact hf3⟩
  | succ k ih =>
    intro index old delAcc insAcc chunks mode out h hA hB hC
    simp only [peekAux] at h
    rcases hg : lines.get? index with _ | s
    · simp only [hg] at h
      obtain ⟨hf1, hf2, hf3⟩ := peekFinish_invariant lines index old delAcc insAcc chunks hA hB hC
      cases h
      exact ⟨hf2, by rw [hf1]; exact hf3⟩
    · simp only [hg] at h
      by_cases hb : peekBoundary s = true
      · rw [if_pos hb] at h
        obtain ⟨hf1, hf2, hf3⟩ := peekFinish_invariant lines index old delAcc insAcc chunks hA hB hC
        cases h
        exact ⟨hf2, by rw [hf1]; exact hf3⟩
      · rw [if_neg hb] at h
        by_cases hst : s = "***"
        · rw [if_pos hst] at h
          obtain ⟨hf1, hf2, hf3⟩ := peekFinish_invariant lines index old delAcc insAcc chunks hA hB hC
          cases h
          exact ⟨hf2, by rw [hf1]; exact hf3⟩
        · rw [if_neg hst] at h
          by_cases hs3 : jsStartsWith s "***" = true
          · rw [if_pos hs3] at h
            simp at h
          · rw [if_neg hs3] at h
            by_cases hfl : (classifyLine s).1 = PeekMode.keep ∧ ¬ mode = PeekMode.keep
            · rw [if_pos hfl] at h
              obtain ⟨hfc1, hfc2⟩ := flushChunks_invariant old delAcc insAcc chunks hA hB hC
              refine ih (index + 1) (old ++ [(classifyLine s).2]) [] []
                (flushChunks old delAcc insAcc chunks) PeekMode.keep out h hfc1 ?_ ?_
              · intro c hc
                obtain ⟨h1, h2⟩ := hfc2 c hc
                refine ⟨h1, ?_⟩
                simp only [List.length_append, List.length_cons, List.length_nil]
                push_cast
                omega
              · simp
            · rw [if_neg hfl] at h
              rcases hcl : classifyLine s with ⟨m, line⟩
              simp only [hcl] at h
              cases m with
              | del =>
                refine ih (index + 1) (old ++ [line]) (delAcc ++ [line]) insAcc
                  chunks PeekMode.del out h hA ?_ ?_
                · intro c hc
                  obtain ⟨h1, h2⟩ := hB c hc
                  refine ⟨h1, ?_⟩
                  simp only [List.length_append, List.length_cons, List.length_nil]
                  push_cast
                  push_cast at h2
                  omega
                · simp only [List.length_append, List.length_cons, List.length_nil]
                  omega
              | add =>
                exact ih (index + 1) old delAcc (insAcc ++ [line]) chunks
                  PeekMode.add out h hA hB hC
              | keep =>
                refine ih (index + 1) (old ++ [line]) delAcc insAcc chunks
                  PeekMode.keep out h hA ?_ ?_
                · intro c hc
                  obtain ⟨h1, h2⟩ := hB c hc
                  refine ⟨h1, ?_⟩
                  simp only [List.length_append, List.length_cons, List.length_nil]
                  push_cast
                  push_cast at h2
                  omega
                · simp only [List.length_append, List.length_cons, List.length_nil]
                  omega

theorem parseUpdateLoop_anyEof_mono (nfc : String → String)
    (lines fileLines : List String) :
    ∀ (fuel pIdx : Nat) (fIdx : Int) (chunksAcc : List Chunk) (fz : Int)
      (out : List Chunk × Nat × Int × Bool),
      parseUpdateLoop nfc lines fileLines fuel pIdx fIdx chunksAcc fz true =
        Except.ok out →
      out.2.2.2 = true := by
  intro fuel
  induction fuel with
  | zero => intro pIdx fIdx acc fz out h; simp [parseUpdateLoop] at h
  | succ fuel ih =>
    intro pIdx fIdx acc fz out h
    simp only [parseUpdateLoop] at h
    by_cases hd : is_done lines pIdx [PATCH_SUFFIX_MARKER, UPDATE_FILE_MARKER,
        DELETE_FILE_MARKER, ADD_FILE_MARKER, END_OF_FILE_MARKER] = true
    · rw [if_pos hd] at h
      cases h
      rfl
    · rw [if_neg hd] at h
      rcases hrs : read_str lines pIdx "@@ " with e | ⟨defStr, pIdx1⟩
      · simp only [hrs] at h
        exact Except.noConfusion h
      · simp only [hrs] at h
        by_cases hinv : ¬ (defStr ≠ "" ∨
            (if defStr = "" ∧ lines.get? pIdx1 = some "@@" then ("@@", pIdx1 + 1)
              else ("", pIdx1)).1 ≠ "" ∨ fIdx = 0)
        · rw [if_pos hinv] at h
          simp at h
        · rw [if_neg hinv] at h
          rcases hpk : peek_next_section lines
              (if defStr = "" ∧ lines.get? pIdx1 = some "@@" then ("@@", pIdx1 + 1)
                else ("", pIdx1)).2 with e | ⟨ctx, lc, p3, ef⟩
          · simp only [hpk] at h
            exact Except.noConfusion h
          · simp only [hpk] at h
            by_cases hneg : (find_context nfc fileLines ctx fIdx ef).1 = -1
            · rw [if_pos hneg] at h
              simp at h
            · rw [if_neg hneg] at h
              simp only [Bool.true_or] at h
              exact ih _ _ _ _ _ h

theorem parseUpdateLoop_monotone (nfc : String → String)
    (lines fileLines : List String) :
    ∀ (fuel pIdx : Nat) (fIdx : Int) (chunksAcc : List Chunk) (fz : Int)
      (out : List Chunk × Nat × Int × Bool),
      parseUpdateLoop nfc lines fileLines fuel pIdx fIdx chunksAcc fz false =
        Except.ok out →
      out.2.2.2 = false →
      chunksMonotone chunksAcc →
      (∀ c ∈ chunksAcc, c.orig_index + (c.del_lines.length : Int) ≤ fIdx) →
      0 ≤ fIdx →
      chunksMonotone out.1 := by
  intro fuel
  induction fuel with
  | zero => intro pIdx fIdx acc fz out h; simp [parseUpdateLoop] at h
  | succ fuel ih =>
    intro pIdx fIdx acc fz out h hout hA hall hf
    simp only [parseUpdateLoop] at h
    by_cases hd : is_done lines pIdx [PATCH_SUFFIX_MARKER, UPDATE_FILE_MARKER,
        DELETE_FILE_MARKER, ADD_FILE_MARKER, END_OF_FILE_MARKER] = true
    · rw [if_pos hd] at h
      cases h
      exact hA
    · rw [if_neg hd] at h
      rcases hrs : read_str lines pIdx "@@ " with e | ⟨defStr, pIdx1⟩
      · simp only [hrs] at h
        exact Except.noConfusion h
      · simp only [hrs] at h
        by_cases hinv : ¬ (defStr ≠ "" ∨
            (if defStr = "" ∧ lines.get? pIdx1 = some "@@" then ("@@", pIdx1 + 1)
              else ("", pIdx1)).1 ≠ "" ∨ fIdx = 0)
        · rw [if_pos hinv] at h
          simp at h
        · rw [if_neg hinv] at h
          rcases hpk : peek_next_section lines
              (if defStr = "" ∧ lines.get? pIdx1 = some "@@" then ("@@", pIdx1 + 1)
                else ("", pIdx1)).2 with e | ⟨ctx, lc, p3, ef⟩
          · simp only [hpk] at h
            exact Except.noConfusion h
          · simp only [hpk] at h
            by_cases hneg : (find_context nfc fileLines ctx fIdx ef).1 = -1
            · rw [if_pos hneg] at h
              simp at h
            · rw [if_neg hneg] at h
              simp only [Bool.false_or] at h
              cases ef with
              | true =>
                exfalso
                have := parseUpdateLoop_anyEof_mono nfc lines fileLines fuel _ _ _ _ _ h
                rw [hout] at this
                cases this
              | false =>
                -- the local chunks of the hunk
                have hpeek := peekAux_invariant lines (lines.length -
                    (if defStr = "" ∧ lines.get? pIdx1 = some "@@" then ("@@", pIdx1 + 1)
                      else ("", pIdx1)).2) _ [] [] [] [] PeekMode.keep
                    (ctx, lc, p3, false) hpk List.chain'_nil (by simp) (by simp)
                obtain ⟨hlcA, hlcB⟩ := hpeek
                have hlcA2 : chunksMonotone lc := hlcA
                have hlcB2 : ∀ c ∈ lc, 0 ≤ c.orig_index ∧
                    c.orig_index + (c.del_lines.length : Int) ≤ (ctx.length : Int) := hlcB
                -- the matched index is at or after the running position
                have hge : fIdx ≤ (find_context nfc fileLines ctx fIdx false).1 := by
                  rw [find_context_noeof_eq]
                  rcases find_context_core_fst_lower nfc fileLines ctx fIdx with h1 | h1
                  · exfalso
                    apply hneg
                    rw [find_context_noeof_eq]
                    exact h1
                  · exact h1
                set r := find_context nfc fileLines ctx fIdx false with hr
                refine ih _ _ _ _ _ h hout ?_ ?_ ?_
                · -- monotonicity of the appended accumulator
                  unfold chunksMonotone at hA ⊢
                  rw [List.chain'_append]
                  refine ⟨hA, ?_, ?_⟩
                  · rw [List.chain'_map]
                    refine List.Chain'.imp ?_ hlcA2
                    intro a b hab
                    simp only []
                    omega
                  · intro x hx y hy
                    have hxm : x ∈ acc := mem_of_getLast?_eq (Option.mem_def.mp hx)
                    rw [List.head?_map] at hy
                    rcases hh : lc.head? with _ | c0
                    · rw [hh] at hy; cases hy
                    · rw [hh] at hy
                      simp only [Option.map_some', Option.mem_def, Option.some.injEq] at hy
                      subst hy
                      have hc0 : c0 ∈ lc := mem_of_head?_eq hh
                      have h0 := (hlcB2 c0 hc0).1
                      have hx2 := hall x hxm
                      simp only []
                      omega
                · -- every chunk consumed before the new running position
                  intro c hc
                  rcases List.mem_append.mp hc with hc | hc
                  · have := hall c hc
                    have hctx : (0 : Int) ≤ (ctx.length : Int) := by positivity
                    omega
                  · obtain ⟨c0, hc0, hfc⟩ := List.mem_map.mp hc
                    obtain ⟨h1, h2⟩ := hlcB2 c0 hc0
                    subst hfc
                    simp only []
                    omega
                · omega

/-- C4 (amended): in every Update action assembled by
`parse_update_file` from a hunk sequence with no EOF-anchored hunk (the
returned `anyEof` observation is false), the chunks are ordered by
non-decreasing `orig_index` and each later chunk's `orig_index` is at
least the line count consumed by its predecessor (`orig_index` plus its
deletions).  The unamended claim fails when an EOF-anchored hunk
resolves at the file's tail before the current running position (see the
counterexample). -/
theorem claim_C4_chunks_monotone (nfc : String → String) (fuel : Nat)
    (lines : List String) (pIdx : Nat) (text : String) (action : PatchAction)
    (pIdx2 : Nat) (fz : Int)
    (h : parse_update_file nfc fuel lines pIdx text =
      Except.ok (action, pIdx2, fz, false)) :
    chunksMonotone action.chunks := by
  unfold parse_update_file at h
  rcases hq : parseUpdateLoop nfc lines (splitNl text) fuel pIdx 0 [] 0 false
    with e | ⟨chunks, a, b, c⟩
  · rw [hq] at h
    simp at h
  · rw [hq] at h
    simp only [Except.ok.injEq, Prod.mk.injEq] at h
    obtain ⟨hact, _, _, hc⟩ := h
    subst hc
    have hm := parseUpdateLoop_monotone nfc lines (splitNl text) fuel pIdx 0 [] 0
      (chunks, a, b, false) hq rfl List.chain'_nil (by simp) (le_refl 0)
    rw [← hact]
    exact hm

/-- C4 counterexample: a patch whose second hunk is EOF-anchored and
matches the file's tail before the position consumed by the first hunk
parses successfully into chunks `[⟨1, ["b"], []⟩, ⟨1, ["b"], []⟩]`,
whose second chunk starts before the `1 + 1 = 2` lines consumed by the
first — the claimed invariant fails. -/
theorem claim_C4_counterexample :
    text_to_patch (fun s => s) 100
      "*** Begin Patch\n*** Update File: f\n@@\n a\n-b\n@@\n-b\n*** EOF\n*** End Patch"
      [("f", "a\nb")] =
      Except.ok
        ({ actions :=
            [("f",
              { type := ActionType.update,
                new_file := none,
                chunks := [⟨1, ["b"], []⟩, ⟨1, ["b"], []⟩],
                move_path := none })] },
          0) ∧
    ¬ chunksMonotone [⟨1, ["b"], []⟩, ⟨1, ["b"], []⟩] := by
  constructor
  · rfl
  · intro hmono
    have h1 := (List.chain'_cons.mp hmono).1
    norm_num at h1

/-- Witness for `claim_C4_chunks_monotone` at a concrete input. -/
theorem claim_C4_witness :
    chunksMonotone [⟨1, [], ["x"]⟩] :=
  claim_C4_chunks_monotone (fun s => s) 10
    (splitNl "*** Begin Patch\n*** Update File: f\n@@\n a\n+x\n*** End Patch") 2 "a"
    { type := ActionType.update, new_file := none, chunks := [⟨1, [], ["x"]⟩],
      move_path := none } 5 0 rfl

/-! ### Move-to header (C6) -/

theorem lookupA_append_of_some {β : Type} {acts : List (String × β)} {p : String}
    {a : β} (h : lookupA acts p = some a) (l2 : List (String × β)) :
    lookupA (acts ++ l2) p = some a := by
  induction acts with
  | nil => simp [lookupA] at h
  | cons kv rest ih =>
    obtain ⟨k, v⟩ := kv
    rw [List.cons_append]
    simp only [lookupA] at h ⊢
    by_cases hk : k = p
    · rw [if_pos hk] at h ⊢
      exact h
    · rw [if_neg hk] at h ⊢
      exact ih h

theorem lookupA_append_self {β : Type} {acts : List (String × β)} {p : String}
    (h : lookupA acts p = none) (v : β) :
    lookupA (acts ++ [(p, v)]) p = some v := by
  induction acts with
  | nil => simp [lookupA]
  | cons kv rest ih =>
    obtain ⟨k, v2⟩ := kv
    rw [List.cons_append]
    simp only [lookupA] at h ⊢
    by_cases hk : k = p
    · rw [if_pos hk] at h
      exact Option.noConfusion h
    · rw [if_neg hk] at h ⊢
      exact ih h

theorem parse_update_file_type {nfc : String → String} {fuel : Nat}
    {lines : List String} {pIdx : Nat} {text : String} {action : PatchAction}
    {pIdx2 : Nat} {fz : Int} {eofb : Bool}
    (h : parse_update_file nfc fuel lines pIdx text =
      Except.ok (action, pIdx2, fz, eofb)) :
    action.type = ActionType.update ∧ action.new_file = none := by
  unfold parse_update_file at h
  rcases hq : parseUpdateLoop nfc lines (splitNl text) fuel pIdx 0 [] 0 false
    with e | ⟨chunks, a2, b2, c2⟩
  · rw [hq] at h
    exact Except.noConfusion h
  · rw [hq] at h
    simp only [Except.ok.injEq, Prod.mk.injEq] at h
    obtain ⟨hact, _⟩ := h
    rw [← hact]
    exact ⟨rfl, rfl⟩

theorem parseLoop_preserve (nfc : String → String) (lines : List String)
    (orig : List (String × String)) (p : String) (a : PatchAction) :
    ∀ (fuel index : Nat) (acts : List (String × PatchAction)) (fz : Int)
      (out : List (String × PatchAction) × Int × Nat),
      parseLoop nfc lines orig fuel index acts fz = Except.ok out →
      lookupA acts p = some a →
      lookupA out.1 p = some a := by
  intro fuel
  induction fuel with
  | zero =>
    intro index acts fz out h hp
    simp only [parseLoop] at h
    exact Except.noConfusion h
  | succ fuel ih =>
    intro index acts fz out h hp
    simp only [parseLoop] at h
    by_cases hd : is_done lines index [PATCH_SUFFIX_MARKER] = true
    · rw [if_pos hd] at h
      rcases hg : lines.get? index with _ | l
      · simp only [hg] at h
        exact Except.noConfusion h
      · simp only [hg] at h
        by_cases hs : jsStartsWith l (jsTrim PATCH_SUFFIX_MARKER) = true
        · rw [if_pos hs] at h
          cases h
          exact hp
        · rw [if_neg hs] at h
          exact Except.noConfusion h
    · rw [if_neg hd] at h
      rcases hr1 : read_str lines index UPDATE_FILE_MARKER with e | ⟨p1, idx1⟩
      · simp only [hr1] at h
        exact Except.noConfusion h
      · simp only [hr1] at h
        by_cases hp1 : p1 ≠ ""
        · rw [if_pos hp1] at h
          by_cases hdup : (lookupA acts p1).isSome = true
          · rw [if_pos hdup] at h
            exact Except.noConfusion h
          · rw [if_neg hdup] at h
            rcases hr2 : read_str lines idx1 MOVE_FILE_TO_MARKER with e | ⟨mv, idx2⟩
            · simp only [hr2] at h
              exact Except.noConfusion h
            · simp only [hr2] at h
              rcases ho : lookupA orig p1 with _ | text
              · simp only [ho] at h
                exact Except.noConfusion h
              · simp only [ho] at h
                rcases hpu : parse_update_file nfc fuel lines idx2 text
                  with e | ⟨action, idx3, fz2, ef⟩
                · simp only [hpu] at h
                  exact Except.noConfusion h
                · simp only [hpu] at h
                  exact ih idx3 _ _ out h (lookupA_append_of_some hp _)
        · rw [if_neg hp1] at h
          rcases hr2 : read_str lines idx1 DELETE_FILE_MARKER with e | ⟨p2, idx2⟩
          · simp only [hr2] at h
            exact Except.noConfusion h
          · simp only [hr2] at h
            by_cases hp2 : p2 ≠ ""
            · rw [if_pos hp2] at h
              by_cases hdup : (lookupA acts p2).isSome = true
              · rw [if_pos hdup] at h
                exact Except.noConfusion h
              · rw [if_neg hdup] at h
                by_cases hmiss : (lookupA orig p2).isNone = true
                · rw [if_pos hmiss] at h
                  exact Except.noConfusion h
                · rw [if_neg hmiss] at h
                  exact ih idx2 _ _ out h (lookupA_append_of_some hp _)
            · rw [if_neg hp2] at h
              rcases hr3 : read_str lines idx2 ADD_FILE_MARKER with e | ⟨p3, idx3⟩
              · simp only [hr3] at h
                exact Except.noConfusion h
              · simp only [hr3] at h
                by_cases hp3 : p3 ≠ ""
                · rw [if_pos hp3] at h
                  by_cases hdup : (lookupA acts p3).isSome = true
                  · rw [if_pos hdup] at h
                    exact Except.noConfusion h
                  · rw [if_neg hdup] at h
                    by_cases hex : (lookupA orig p3).isSome = true
                    · rw [if_pos hex] at h
                      exact Except.noConfusion h
                    · rw [if_neg hex] at h
                      rcases hpa : parse_add_file lines idx3 with e | ⟨action, idx4⟩
                      · simp only [hpa] at h
                        exact Except.noConfusion h
                      · simp only [hpa] at h
                        exact ih idx4 _ _ out h (lookupA_append_of_some hp _)
                · rw [if_neg hp3] at h
                  exact Except.noConfusion h

/-- C6 (amended): the move-to header of the implementation is
`*** Move File to: <newpath>`, not `*** Move to: <newpath>` as the spec
grammar writes.  Whenever the main parser loop stands at an Update
header immediately followed by a `*** Move File to: ` line with a
non-empty path, and the whole parse succeeds, the resulting action map
records the new path as the Update action's `move_path`. -/
theorem claim_C6_move_to (nfc : String → String) (lines : List String)
    (orig : List (String × String)) (fuel k : Nat)
    (acts : List (String × PatchAction)) (fz : Int)
    (out : List (String × PatchAction) × Int × Nat)
    (p q : String) (hp : p ≠ "") (hq : q ≠ "")
    (hline : lines.get? k = some (UPDATE_FILE_MARKER ++ p))
    (hnext : lines.get? (k + 1) = some (MOVE_FILE_TO_MARKER ++ q))
    (hok : parseLoop nfc lines orig fuel k acts fz = Except.ok out) :
    ∃ a : PatchAction, lookupA out.1 p = some a ∧ a.move_path = some q ∧
      a.type = ActionType.update := by
  cases fuel with
  | zero =>
    simp only [parseLoop] at hok
    exact Except.noConfusion hok
  | succ fuel =>
    have hnsuf : jsStartsWith (UPDATE_FILE_MARKER ++ p)
        (jsTrim PATCH_SUFFIX_MARKER) = false := rfl
    have hdone : is_done lines k [PATCH_SUFFIX_MARKER] = false := by
      simp only [is_done, hline, List.any_cons, List.any_nil, Bool.or_false]
      exact hnsuf
    have hstart1 : jsStartsWith (UPDATE_FILE_MARKER ++ p) UPDATE_FILE_MARKER = true := rfl
    have hdrop1 : jsDropChars (UPDATE_FILE_MARKER ++ p)
        UPDATE_FILE_MARKER.data.length = p := rfl
    have hr1 : read_str lines k UPDATE_FILE_MARKER = Except.ok (p, k + 1) := by
      simp only [read_str, hline]
      rw [if_pos hstart1, hdrop1]
    have hstart2 : jsStartsWith (MOVE_FILE_TO_MARKER ++ q) MOVE_FILE_TO_MARKER = true := rfl
    have hdrop2 : jsDropChars (MOVE_FILE_TO_MARKER ++ q)
        MOVE_FILE_TO_MARKER.data.length = q := rfl
    have hr2 : read_str lines (k + 1) MOVE_FILE_TO_MARKER = Except.ok (q, k + 1 + 1) := by
      simp only [read_str, hnext]
      rw [if_pos hstart2, hdrop2]
    simp only [parseLoop] at hok
    rw [if_neg (by simp [hdone])] at hok
    simp only [hr1] at hok
    rw [if_pos hp] at hok
    cases hdup : lookupA acts p with
    | some a0 =>
      rw [if_pos (by rw [hdup]; rfl)] at hok
      exact Except.noConfusion hok
    | none =>
      rw [if_neg (by rw [hdup]; simp)] at hok
      simp only [hr2] at hok
      rcases ho : lookupA orig p with _ | text
      · simp only [ho] at hok
        exact Except.noConfusion hok
      · simp only [ho] at hok
        rcases hpu : parse_update_file nfc fuel lines (k + 1 + 1) text
          with e | ⟨action, idx3, fz2, ef⟩
        · simp only [hpu] at hok
          exact Except.noConfusion hok
        · simp only [hpu] at hok
          rw [if_neg hq] at hok
          have hmem : lookupA (acts ++ [(p, { action with move_path := some q })]) p =
              some { action with move_path := some q } := lookupA_append_self hdup _
          have hfin := parseLoop_preserve nfc lines orig p _ fuel idx3 _ _ out hok hmem
          refine ⟨{ action with move_path := some q }, hfin, rfl, ?_⟩
          exact (parse_update_file_type hpu).1

/-- C6 counterexample: a patch using the spec grammar's literal
`*** Move to: ` line fails to parse — the line is not recognized as a
move-to header and aborts the hunk scan. -/
theorem claim_C6_counterexample :
    text_to_patch (fun s => s) 10
      "*** Begin Patch\n*** Update File: f\n*** Move to: g\n*** End Patch"
      [("f", "x")] = Except.error "Invalid Line: *** Move to: g" := rfl

/-- Witness for `claim_C6_move_to` at a concrete patch. -/
theorem claim_C6_witness :
    ∃ a : PatchAction,
      lookupA ([("f", ⟨ActionType.update, none, [], some "g"⟩)] :
        List (String × PatchAction)) "f" = some a ∧
      a.move_path = some "g" ∧ a.type = ActionType.update :=
  claim_C6_move_to (fun s => s)
    (splitNl (jsTrim
      "*** Begin Patch\n*** Update File: f\n*** Move File to: g\n*** End Patch"))
    [("f", "x")] 10 1 [] 0
    ([("f", ⟨ActionType.update, none, [], some "g"⟩)], 0, 4)
    "f" "g" (by decide) (by decide) rfl rfl rfl

/-! ### Canonicalizer (C9) -/

theorem punctEquiv_fixed (c d : Char) (h : punctEquivChar c = some d) :
    pmapChar d = d := by
  unfold punctEquivChar at h
  rcases hf : PUNCT_EQUIV.find? (fun q => decide (q.1 = c)) with _ | pair
  · rw [hf] at h
    exact Option.noConfusion h
  · rw [hf] at h
    simp only [Option.map_some', Option.some.injEq] at h
    subst h
    have hmem : pair ∈ PUNCT_EQUIV := List.mem_of_find?_eq_some hf
    have hall : ∀ q ∈ PUNCT_EQUIV, pmapChar q.2 = q.2 := by decide
    exact hall pair hmem

theorem pmapChar_idem (c : Char) : pmapChar (pmapChar c) = pmapChar c := by
  rcases hc : punctEquivChar c with _ | d
  · unfold pmapChar
    simp [hc]
  · have hfix : pmapChar d = d := punctEquiv_fixed c d hc
    unfold pmapChar
    simp only [hc, Option.getD_some]
    unfold pmapChar at hfix
    exact hfix

theorem pmapStr_idem (s : String) : pmapStr (pmapStr s) = pmapStr s := by
  unfold pmapStr
  congr 1
  show (s.data.map pmapChar).map pmapChar = s.data.map pmapChar
  rw [List.map_map]
  induction s.data with
  | nil => rfl
  | cons c l ih =>
    simp only [List.map_cons, Function.comp_apply, List.map_map] at ih ⊢
    rw [pmapChar_idem c, ih]

theorem pmap_map_eq_of_zip {l1 l2 : List Char} (hlen : l1.length = l2.length)
    (h : ∀ cd ∈ l1.zip l2, pmapChar cd.1 = pmapChar cd.2) :
    l1.map pmapChar = l2.map pmapChar := by
  induction l1 generalizing l2 with
  | nil =>
    cases l2 with
    | nil => rfl
    | cons d m => simp at hlen
  | cons c l ih =>
    cases l2 with
    | nil => simp at hlen
    | cons d m =>
      simp only [List.map_cons]
      have h1 := h (c, d) (by simp [List.zip_cons_cons])
      rw [h1]
      congr 1
      refine ih (by simpa using hlen) ?_
      intro cd hcd
      exact h cd (by simp [List.zip_cons_cons, hcd])

/-- C9 (confirmed): `canon` is idempotent, and strings that differ only
by replacing characters with punctuation-equivalent variants from the
fixed table canonicalize identically.  The NFC builtin is abstract here;
the two hypotheses record the facts about Unicode NFC this rests on:
canon output (NFC-normalized text with the table characters collapsed to
ASCII, none of which takes part in any canonical composition) is
NFC-invariant, and NFC preserves punctuation-equivalence of strings. -/
theorem claim_C9_canon_idem_equiv (nfc : String → String)
    (hnfc1 : ∀ t : String, nfc (pmapStr (nfc t)) = pmapStr (nfc t))
    (hnfc2 : ∀ u v : String, pmapStr u = pmapStr v →
      pmapStr (nfc u) = pmapStr (nfc v))
    (s t : String)
    (hlen : s.data.length = t.data.length)
    (hvar : ∀ cd ∈ s.data.zip t.data, pmapChar cd.1 = pmapChar cd.2) :
    canon nfc (canon nfc s) = canon nfc s ∧ canon nfc s = canon nfc t := by
  constructor
  · unfold canon
    rw [hnfc1 s]
    exact pmapStr_idem (nfc s)
  · unfold canon
    apply hnfc2
    unfold pmapStr
    congr 1
    exact pmap_map_eq_of_zip hlen hvar

/-- Witness for `claim_C9_canon_idem_equiv`: a right single quotation
mark and the ASCII apostrophe in otherwise identical strings. -/
theorem claim_C9_witness :
    canon (fun s => s) (canon (fun s => s) "a’b") =
      canon (fun s => s) "a’b" ∧
    canon (fun s => s) "a’b" = canon (fun s => s) "a'b" :=
  claim_C9_canon_idem_equiv (fun s => s) (fun _ => rfl) (fun _ _ h => h)
    "a’b" "a'b" (by decide) (by decide)

end ByteCraft
